import Mathlib

/-!
Verification of the screen-composition and text-layout subsystem of the
melonds-ds error display (src/libretro/error.cpp).

The word-wrapping routine `word_wrap_wideglyph` is provided by the
libretro-common dependency; its implementation is not part of this
repository's sources, so it is modelled here from the specification
(section 4.1 "Text Layout Engine"): greedy fill-to-budget wrapping at
whitespace boundaries with wide-glyph weighting, an over-budget token
placed alone on its own line, and a maximum line count (zero meaning
unbounded).

The drawing pipeline of `ErrorScreen` (constructor, `DrawTopScreen`,
`DrawBottomScreen`, `Render`) is embedded as traces of abstract
operations (resource acquisition/release, assertion checks, draw calls),
parametrised by the quantities the code obtains at run time (icon sizes,
measured text extents, screen dimensions).
-/

set_option autoImplicit false

namespace MelondsDS

/-! ### Whitespace and tokenisation -/

/-- Whitespace characters recognised by the wrapping model. -/
def isWs (c : Char) : Bool :=
  c = ' ' || c = '\t' || c = '\n' || c = '\r'

/-- Modelled from the spec: tokenisation of the input at whitespace
boundaries.  `acc` holds the (reversed) characters of the token being
scanned. -/
def tokenizeAux : List Char → List Char → List (List Char)
  | [], acc => if acc.isEmpty then [] else [acc.reverse]
  | c :: cs, acc =>
    if isWs c then
      if acc.isEmpty then tokenizeAux cs [] else acc.reverse :: tokenizeAux cs []
    else
      tokenizeAux cs (c :: acc)

/-- Modelled from the spec: the whitespace-delimited tokens of a string. -/
def tokenize (s : List Char) : List (List Char) :=
  tokenizeAux s []

/-! ### Wide-glyph weighting -/

/-- Modelled from the spec: a glyph whose pixel width (per the glyph
measure `gw`) is at or past the wide threshold `thr` counts more (2)
toward the line budget than a narrow glyph (1). -/
def charWeight (gw : Char → Nat) (thr : Nat) (c : Char) : Nat :=
  if gw c < thr then 1 else 2

/-- Weighted length of a sequence of characters. -/
def weightedLen (gw : Char → Nat) (thr : Nat) (l : List Char) : Nat :=
  (l.map (charWeight gw thr)).sum

/-- Weighted length of a single token. -/
def tokenWeight (gw : Char → Nat) (thr : Nat) (t : List Char) : Nat :=
  weightedLen gw thr t

/-- Weight of the single space inserted between tokens on a line. -/
def spaceWeight (gw : Char → Nat) (thr : Nat) : Nat :=
  charWeight gw thr ' '

/-! ### Greedy line filling -/

/-- Modelled from the spec: greedy fill-to-budget.  `cur` is the
(reversed) list of tokens in the line under construction, `w` its
weighted length.  A token is appended if it still fits; otherwise the
current line is emitted and the token starts a new line (a token is
always placed, even if it alone exceeds the budget). -/
def greedyAux (gw : Char → Nat) (thr budget : Nat) :
    List (List Char) → List (List Char) → Nat → List (List (List Char))
  | [], cur, _ => [cur.reverse]
  | t :: ts, cur, w =>
    if w + spaceWeight gw thr + tokenWeight gw thr t ≤ budget then
      greedyAux gw thr budget ts (t :: cur) (w + spaceWeight gw thr + tokenWeight gw thr t)
    else
      cur.reverse :: greedyAux gw thr budget ts [t] (tokenWeight gw thr t)

/-- Modelled from the spec: group a token sequence into greedy lines. -/
def greedy (gw : Char → Nat) (thr budget : Nat) :
    List (List Char) → List (List (List Char))
  | [] => []
  | t :: ts => greedyAux gw thr budget ts [t] (tokenWeight gw thr t)

/-! ### Rendering lines back to a string -/

/-- Join a list of chunks with a separator between consecutive chunks. -/
def joinSep (sep : List Char) : List (List Char) → List Char
  | [] => []
  | [x] => x
  | x :: y :: rest => x ++ sep ++ joinSep sep (y :: rest)

/-- A line's text: its tokens joined by single spaces. -/
def renderLine (line : List (List Char)) : List Char :=
  joinSep [' '] line

/-- The wrapped text: lines joined by newline characters. -/
def renderText (ls : List (List (List Char))) : List Char :=
  joinSep ['\n'] (ls.map renderLine)

/-- Modelled from the spec: a max-line count of zero means unbounded;
otherwise the output is truncated to the first `maxLines` lines. -/
def capLines (maxLines : Nat) (ls : List (List (List Char))) :
    List (List (List Char)) :=
  if maxLines = 0 then ls else ls.take maxLines

/-- Modelled from the spec: the wrapping entry point
`word_wrap_wideglyph(dst, dst_size, src, src_len, line_width,
wideglyph_width, max_lines)` of the libretro-common string utilities, as
the pure string-to-string function it computes.  `gw` is the glyph pixel
measure of the font in use. -/
def word_wrap_wideglyph (gw : Char → Nat) (src : List Char)
    (lineWidth thr maxLines : Nat) : List Char :=
  renderText (capLines maxLines (greedy gw thr lineWidth (tokenize src)))

/-- Split a string at newline characters. -/
def splitLinesAux : List Char → List Char → List (List Char)
  | [], acc => [acc.reverse]
  | c :: cs, acc =>
    if c = '\n' then acc.reverse :: splitLinesAux cs []
    else splitLinesAux cs (c :: acc)

/-- The lines of a string (the empty string has no lines). -/
def splitLines : List Char → List (List Char)
  | [] => []
  | c :: cs => splitLinesAux (c :: cs) []

/-! ### Basic facts about tokenisation -/

/-- A token, as a predicate: nonempty and whitespace-free. -/
def goodToken (t : List Char) : Prop :=
  t ≠ [] ∧ ∀ c ∈ t, isWs c = false

theorem tokenizeAux_good (s : List Char) :
    ∀ acc : List Char, (∀ c ∈ acc, isWs c = false) →
      ∀ t ∈ tokenizeAux s acc, t ≠ [] ∧ ∀ c ∈ t, isWs c = false := by
  induction s with
  | nil =>
    intro acc hacc t ht
    simp only [tokenizeAux] at ht
    by_cases h : acc.isEmpty
    · simp [h] at ht
    · simp [h] at ht
      subst ht
      refine ⟨?_, ?_⟩
      · simp only [List.isEmpty_iff] at h
        simpa using h
      · intro c hc
        exact hacc c (List.mem_reverse.mp hc)
  | cons c cs ih =>
    intro acc hacc t ht
    simp only [tokenizeAux] at ht
    by_cases hws : isWs c
    · simp only [hws, if_true] at ht
      by_cases h : acc.isEmpty
      · simp only [h, if_true] at ht
        exact ih [] (by simp) t ht
      · simp [h] at ht
        rcases ht with h1 | h1
        · subst h1
          refine ⟨?_, ?_⟩
          · simp only [List.isEmpty_iff] at h
            simpa using h
          · intro x hx
            exact hacc x (List.mem_reverse.mp hx)
        · exact ih [] (by simp) t h1
    · simp only [hws, if_false] at ht
      have hacc' : ∀ x ∈ c :: acc, isWs x = false := by
        intro x hx
        rcases List.mem_cons.mp hx with h1 | h1
        · subst h1; simpa using hws
        · exact hacc x h1
      exact ih (c :: acc) hacc' t ht

theorem tokenize_good (s : List Char) : ∀ t ∈ tokenize s, goodToken t := by
  intro t ht
  exact tokenizeAux_good s [] (by simp) t ht

/-! ### The greedy grouping is a partition of the token list -/

theorem greedyAux_flatten (gw : Char → Nat) (thr budget : Nat) (ts : List (List Char)) :
    ∀ cur w, (greedyAux gw thr budget ts cur w).flatten = cur.reverse ++ ts := by
  induction ts with
  | nil => intro cur w; simp [greedyAux]
  | cons t ts ih =>
    intro cur w
    simp only [greedyAux]
    by_cases h : w + spaceWeight gw thr + tokenWeight gw thr t ≤ budget
    · rw [if_pos h, ih]
      simp
    · rw [if_neg h]
      simp [ih]

theorem greedy_flatten (gw : Char → Nat) (thr budget : Nat) (ts : List (List Char)) :
    (greedy gw thr budget ts).flatten = ts := by
  cases ts with
  | nil => simp [greedy]
  | cons t ts => simp [greedy, greedyAux_flatten]

theorem greedyAux_ne_nil (gw : Char → Nat) (thr budget : Nat) (ts : List (List Char)) :
    ∀ cur w, cur ≠ [] → ∀ l ∈ greedyAux gw thr budget ts cur w, l ≠ [] := by
  induction ts with
  | nil =>
    intro cur w hcur l hl
    simp only [greedyAux, List.mem_singleton] at hl
    subst hl
    simpa using hcur
  | cons t ts ih =>
    intro cur w hcur l hl
    simp only [greedyAux] at hl
    by_cases h : w + spaceWeight gw thr + tokenWeight gw thr t ≤ budget
    · rw [if_pos h] at hl
      exact ih (t :: cur) _ (by simp) l hl
    · rw [if_neg h] at hl
      rcases List.mem_cons.mp hl with rfl | hl
      · simpa using hcur
      · exact ih [t] _ (by simp) l hl

theorem greedy_ne_nil (gw : Char → Nat) (thr budget : Nat) (ts : List (List Char)) :
    ∀ l ∈ greedy gw thr budget ts, l ≠ [] := by
  cases ts with
  | nil => simp [greedy]
  | cons t ts =>
    intro l hl
    exact greedyAux_ne_nil gw thr budget ts [t] _ (by simp) l hl

/-! ### Tokenising a rendered text recovers the token lists -/

theorem reverse_isEmpty_false (t : List Char) (h : t ≠ []) :
    t.reverse.isEmpty = false := by
  cases t with
  | nil => exact absurd rfl h
  | cons a t => simp

theorem tokenizeAux_append_token (t : List Char) :
    ∀ acc rest, (∀ c ∈ t, isWs c = false) →
      tokenizeAux (t ++ rest) acc = tokenizeAux rest (t.reverse ++ acc) := by
  induction t with
  | nil => intro acc rest _; simp
  | cons c cs ih =>
    intro acc rest h
    have hc : isWs c = false := h c (by simp)
    have step : tokenizeAux ((c :: cs) ++ rest) acc = tokenizeAux (cs ++ rest) (c :: acc) := by
      simp [tokenizeAux, hc]
    rw [step, ih (c :: acc) rest (fun x hx => h x (by simp [hx]))]
    simp

theorem tokenizeAux_ws_cons (c : Char) (xs acc : List Char) (hc : isWs c = true)
    (hacc : acc ≠ []) :
    tokenizeAux (c :: xs) acc.reverse = acc :: tokenizeAux xs [] := by
  have h0 : acc.reverse.isEmpty = false := by
    cases acc with
    | nil => exact absurd rfl hacc
    | cons a t => simp
  simp [tokenizeAux, hc, h0]

theorem tokenizeAux_renderLine (line : List (List Char)) :
    (∀ t ∈ line, goodToken t) → line ≠ [] →
      (tokenizeAux (renderLine line) [] = line ∧
        ∀ c rest, isWs c = true →
          tokenizeAux (renderLine line ++ c :: rest) [] = line ++ tokenizeAux rest []) := by
  induction line with
  | nil => intro _ h; exact absurd rfl h
  | cons t rest ih =>
    intro hgood _
    obtain ⟨htne, htws⟩ := hgood t (by simp)
    cases rest with
    | nil =>
      constructor
      · have h0 := tokenizeAux_append_token t [] [] htws
        simp only [List.append_nil] at h0
        show tokenizeAux t [] = [t]
        rw [h0]
        simp [tokenizeAux, reverse_isEmpty_false t htne]
      · intro c rest hc
        have h0 := tokenizeAux_append_token t [] (c :: rest) htws
        simp only [List.append_nil] at h0
        show tokenizeAux (t ++ c :: rest) [] = [t] ++ tokenizeAux rest []
        rw [h0, tokenizeAux_ws_cons c rest t hc htne]
        simp
    | cons t' rest' =>
      have hgood' : ∀ x ∈ t' :: rest', goodToken x := fun x hx => hgood x (by simp [hx])
      obtain ⟨ih1, ih2⟩ := ih hgood' (by simp)
      have hrl : renderLine (t :: t' :: rest') = t ++ ' ' :: renderLine (t' :: rest') := by
        simp [renderLine, joinSep]
      have hsw : isWs ' ' = true := by simp [isWs]
      constructor
      · show tokenizeAux (renderLine (t :: t' :: rest')) [] = t :: t' :: rest'
        rw [hrl]
        have h0 := tokenizeAux_append_token t [] (' ' :: renderLine (t' :: rest')) htws
        simp only [List.append_nil] at h0
        rw [h0, tokenizeAux_ws_cons ' ' (renderLine (t' :: rest')) t hsw htne, ih1]
      · intro c rest hc
        show tokenizeAux (renderLine (t :: t' :: rest') ++ c :: rest) [] =
          (t :: t' :: rest') ++ tokenizeAux rest []
        rw [hrl]
        have h2 : (t ++ ' ' :: renderLine (t' :: rest')) ++ c :: rest =
            t ++ ' ' :: (renderLine (t' :: rest') ++ c :: rest) := by simp
        rw [h2]
        have h0 := tokenizeAux_append_token t [] (' ' :: (renderLine (t' :: rest') ++ c :: rest)) htws
        simp only [List.append_nil] at h0
        rw [h0, tokenizeAux_ws_cons ' ' (renderLine (t' :: rest') ++ c :: rest) t hsw htne,
          ih2 c rest hc]
        simp

theorem tokenize_renderText (ls : List (List (List Char))) :
    (∀ l ∈ ls, l ≠ []) → (∀ t ∈ ls.flatten, goodToken t) →
      tokenize (renderText ls) = ls.flatten := by
  induction ls with
  | nil => intro _ _; simp [renderText, joinSep, tokenize, tokenizeAux]
  | cons l rest ih =>
    intro hne hgood
    have hlne : l ≠ [] := hne l (by simp)
    have hlgood : ∀ t ∈ l, goodToken t := by
      intro t ht
      exact hgood t (by simp [List.mem_flatten]; exact Or.inl ht)
    cases rest with
    | nil =>
      show tokenize (renderLine l) = l ++ []
      rw [List.append_nil]
      exact (tokenizeAux_renderLine l hlgood hlne).1
    | cons l' rest' =>
      have hrt : renderText (l :: l' :: rest') =
          renderLine l ++ '\n' :: renderText (l' :: rest') := by
        simp [renderText, joinSep]
      show tokenize (renderText (l :: l' :: rest')) = l ++ (l' :: rest').flatten
      rw [hrt]
      have := (tokenizeAux_renderLine l hlgood hlne).2 '\n' (renderText (l' :: rest'))
        (by simp [isWs])
      show tokenizeAux (renderLine l ++ '\n' :: renderText (l' :: rest')) [] = _
      rw [this]
      have ihr : tokenize (renderText (l' :: rest')) = (l' :: rest').flatten := by
        refine ih ?_ ?_
        · intro x hx; exact hne x (by simp [hx])
        · intro t ht
          refine hgood t ?_
          simp only [List.flatten_cons] at ht ⊢
          exact List.mem_append_right _ ht
      show l ++ tokenizeAux (renderText (l' :: rest')) [] = _
      rw [show tokenizeAux (renderText (l' :: rest')) [] =
        tokenize (renderText (l' :: rest')) from rfl, ihr]

/-! ### Truncation helpers -/

theorem mem_take_subset {α : Type} (k : Nat) (ls : List α) : ∀ x ∈ ls.take k, x ∈ ls := by
  intro x hx
  rw [← List.take_append_drop k ls]
  exact List.mem_append_left _ hx

theorem flatten_take_subset {α : Type} (k : Nat) (ls : List (List α)) :
    ∀ x ∈ (ls.take k).flatten, x ∈ ls.flatten := by
  intro x hx
  rw [← List.take_append_drop k ls, List.flatten_append]
  exact List.mem_append_left _ hx

theorem mem_capLines {k : Nat} {ls : List (List (List Char))} {l : List (List Char)} :
    l ∈ capLines k ls → l ∈ ls := by
  unfold capLines
  by_cases h : k = 0
  · simp [h]
  · rw [if_neg h]
    exact mem_take_subset k ls l

theorem mem_capLines_flatten {k : Nat} {ls : List (List (List Char))} {t : List Char} :
    t ∈ (capLines k ls).flatten → t ∈ ls.flatten := by
  unfold capLines
  by_cases h : k = 0
  · simp [h]
  · rw [if_neg h]
    exact flatten_take_subset k ls t

/-- The tokens of the wrapped output are exactly the (possibly truncated)
greedy lines' tokens. -/
theorem wrap_tokens (gw : Char → Nat) (thr b k : Nat) (s : List Char) :
    tokenize (word_wrap_wideglyph gw s b thr k) =
      (capLines k (greedy gw thr b (tokenize s))).flatten := by
  unfold word_wrap_wideglyph
  refine tokenize_renderText _ ?_ ?_
  · intro l hl
    exact greedy_ne_nil gw thr b (tokenize s) l (mem_capLines hl)
  · intro t ht
    have ht' : t ∈ (greedy gw thr b (tokenize s)).flatten := mem_capLines_flatten ht
    rw [greedy_flatten] at ht'
    exact tokenize_good s t ht'

/-! ### Line weights -/

/-- The weighted length of a line of tokens, counting one space between
consecutive tokens. -/
def lineWeight (gw : Char → Nat) (thr : Nat) : List (List Char) → Nat
  | [] => 0
  | t :: ts =>
    ts.foldl (fun w t' => w + spaceWeight gw thr + tokenWeight gw thr t') (tokenWeight gw thr t)

theorem lineWeight_foldl_shift (gw : Char → Nat) (thr : Nat) (ts : List (List Char)) :
    ∀ a b : Nat,
      ts.foldl (fun w t' => w + spaceWeight gw thr + tokenWeight gw thr t') (a + b) =
        a + ts.foldl (fun w t' => w + spaceWeight gw thr + tokenWeight gw thr t') b := by
  induction ts with
  | nil => intro a b; rfl
  | cons t ts ih =>
    intro a b
    show ts.foldl _ (a + b + spaceWeight gw thr + tokenWeight gw thr t) = _
    rw [show a + b + spaceWeight gw thr + tokenWeight gw thr t =
      a + (b + spaceWeight gw thr + tokenWeight gw thr t) by omega, ih]
    rfl

theorem lineWeight_cons_cons (gw : Char → Nat) (thr : Nat) (t t' : List Char)
    (rest : List (List Char)) :
    lineWeight gw thr (t :: t' :: rest) =
      tokenWeight gw thr t + spaceWeight gw thr + lineWeight gw thr (t' :: rest) := by
  show (t' :: rest).foldl _ (tokenWeight gw thr t) = _
  show rest.foldl _ (tokenWeight gw thr t + spaceWeight gw thr + tokenWeight gw thr t') = _
  rw [show tokenWeight gw thr t + spaceWeight gw thr + tokenWeight gw thr t' =
    (tokenWeight gw thr t + spaceWeight gw thr) + tokenWeight gw thr t' by omega]
  rw [lineWeight_foldl_shift]
  rfl

theorem lineWeight_concat (gw : Char → Nat) (thr : Nat) (line : List (List Char))
    (t : List Char) (h : line ≠ []) :
    lineWeight gw thr (line ++ [t]) =
      lineWeight gw thr line + spaceWeight gw thr + tokenWeight gw thr t := by
  cases line with
  | nil => exact absurd rfl h
  | cons t0 ts =>
    show ((ts ++ [t]).foldl _ (tokenWeight gw thr t0)) = _
    rw [List.foldl_append]
    rfl

theorem weightedLen_append (gw : Char → Nat) (thr : Nat) (x y : List Char) :
    weightedLen gw thr (x ++ y) = weightedLen gw thr x + weightedLen gw thr y := by
  simp [weightedLen]

theorem weightedLen_renderLine (gw : Char → Nat) (thr : Nat) (line : List (List Char)) :
    line ≠ [] → weightedLen gw thr (renderLine line) = lineWeight gw thr line := by
  induction line with
  | nil => intro h; exact absurd rfl h
  | cons t rest ih =>
    intro _
    cases rest with
    | nil => rfl
    | cons t' rest' =>
      have hrl : renderLine (t :: t' :: rest') = t ++ ' ' :: renderLine (t' :: rest') := by
        simp [renderLine, joinSep]
      rw [hrl, weightedLen_append, lineWeight_cons_cons]
      have : weightedLen gw thr (' ' :: renderLine (t' :: rest')) =
          spaceWeight gw thr + weightedLen gw thr (renderLine (t' :: rest')) := by
        simp [weightedLen, spaceWeight]
      rw [this, ih (by simp)]
      simp only [tokenWeight]
      omega

/-! ### The greedy lines respect the budget -/

theorem greedyAux_budget (gw : Char → Nat) (thr b : Nat) (ts : List (List Char)) :
    ∀ cur w, cur ≠ [] → w = lineWeight gw thr cur.reverse →
      (w ≤ b ∨ ∃ t0, cur = [t0]) →
      ∀ l ∈ greedyAux gw thr b ts cur w,
        lineWeight gw thr l ≤ b ∨ ∃ t0, l = [t0] := by
  induction ts with
  | nil =>
    intro cur w hcur hw hinv l hl
    simp only [greedyAux, List.mem_singleton] at hl
    subst hl
    rcases hinv with h | ⟨t0, h⟩
    · left; omega
    · right; exact ⟨t0, by simp [h]⟩
  | cons t ts ih =>
    intro cur w hcur hw hinv l hl
    simp only [greedyAux] at hl
    by_cases h : w + spaceWeight gw thr + tokenWeight gw thr t ≤ b
    · rw [if_pos h] at hl
      refine ih (t :: cur) _ (by simp) ?_ (Or.inl h) l hl
      rw [List.reverse_cons,
        lineWeight_concat gw thr cur.reverse t (by simpa using hcur), ← hw]
    · rw [if_neg h] at hl
      rcases List.mem_cons.mp hl with h1 | h1
      · subst h1
        rcases hinv with h2 | ⟨t0, h2⟩
        · left; omega
        · right; exact ⟨t0, by simp [h2]⟩
      · exact ih [t] _ (by simp) rfl (Or.inr ⟨t, rfl⟩) l h1

theorem greedy_budget (gw : Char → Nat) (thr b : Nat) (ts : List (List Char)) :
    ∀ l ∈ greedy gw thr b ts, lineWeight gw thr l ≤ b ∨ ∃ t0, l = [t0] := by
  cases ts with
  | nil => simp [greedy]
  | cons t ts =>
    intro l hl
    exact greedyAux_budget gw thr b ts [t] _ (by simp) rfl (Or.inr ⟨t, rfl⟩) l hl

/-! ### Splitting a rendered text recovers the rendered lines -/

theorem mem_renderLine (line : List (List Char)) :
    ∀ c ∈ renderLine line, c = ' ' ∨ ∃ t ∈ line, c ∈ t := by
  induction line with
  | nil => intro c hc; simp [renderLine, joinSep] at hc
  | cons t rest ih =>
    intro c hc
    cases rest with
    | nil =>
      right
      exact ⟨t, by simp, hc⟩
    | cons t' rest' =>
      have hrl : renderLine (t :: t' :: rest') = t ++ ' ' :: renderLine (t' :: rest') := by
        simp [renderLine, joinSep]
      rw [hrl] at hc
      rcases List.mem_append.mp hc with h | h
      · right; exact ⟨t, by simp, h⟩
      · rcases List.mem_cons.mp h with h1 | h1
        · left; exact h1
        · rcases ih c h1 with h2 | ⟨x, hx, hcx⟩
          · left; exact h2
          · right; exact ⟨x, by simp [hx], hcx⟩

theorem renderLine_no_newline (line : List (List Char))
    (h : ∀ t ∈ line, goodToken t) : ∀ c ∈ renderLine line, c ≠ '\n' := by
  intro c hc
  rcases mem_renderLine line c hc with h1 | ⟨t, ht, hct⟩
  · subst h1; decide
  · intro hne
    have := (h t ht).2 c hct
    subst hne
    simp [isWs] at this

theorem renderLine_ne_nil (line : List (List Char)) (hne : line ≠ [])
    (h : ∀ t ∈ line, goodToken t) : renderLine line ≠ [] := by
  cases line with
  | nil => exact absurd rfl hne
  | cons t rest =>
    have ht : t ≠ [] := (h t (by simp)).1
    cases rest with
    | nil => exact ht
    | cons t' rest' =>
      have hrl : renderLine (t :: t' :: rest') = t ++ ' ' :: renderLine (t' :: rest') := by
        simp [renderLine, joinSep]
      rw [hrl]
      cases t with
      | nil => exact absurd rfl ht
      | cons a as => simp

theorem splitLinesAux_append (x : List Char) :
    ∀ acc rest, (∀ c ∈ x, c ≠ '\n') →
      splitLinesAux (x ++ rest) acc = splitLinesAux rest (x.reverse ++ acc) := by
  induction x with
  | nil => intro acc rest _; simp
  | cons c cs ih =>
    intro acc rest h
    have hc : c ≠ '\n' := h c (by simp)
    have step : splitLinesAux ((c :: cs) ++ rest) acc = splitLinesAux (cs ++ rest) (c :: acc) := by
      simp [splitLinesAux, hc]
    rw [step, ih (c :: acc) rest (fun y hy => h y (by simp [hy]))]
    simp

theorem splitLinesAux_renderText (ls : List (List (List Char)))
    (h : ∀ l ∈ ls, (∀ c ∈ renderLine l, c ≠ '\n')) (hne : ls ≠ []) :
    splitLinesAux (renderText ls) [] = ls.map renderLine := by
  induction ls with
  | nil => exact absurd rfl hne
  | cons l rest ih =>
    have hl : ∀ c ∈ renderLine l, c ≠ '\n' := h l (by simp)
    cases rest with
    | nil =>
      show splitLinesAux (renderLine l) [] = [renderLine l]
      have h0 := splitLinesAux_append (renderLine l) [] [] hl
      rw [List.append_nil] at h0
      rw [h0]
      simp [splitLinesAux]
    | cons l' rest' =>
      have hrt : renderText (l :: l' :: rest') =
          renderLine l ++ '\n' :: renderText (l' :: rest') := by
        simp [renderText, joinSep]
      rw [hrt, splitLinesAux_append (renderLine l) [] _ hl]
      have step : splitLinesAux ('\n' :: renderText (l' :: rest')) ((renderLine l).reverse ++ []) =
          renderLine l :: splitLinesAux (renderText (l' :: rest')) [] := by
        simp [splitLinesAux]
      rw [step, ih (fun x hx => h x (by simp [hx])) (by simp)]
      simp

theorem renderText_ne_nil (ls : List (List (List Char))) (hne : ls ≠ [])
    (h : ∀ l ∈ ls, l ≠ []) (hgood : ∀ t ∈ ls.flatten, goodToken t) :
    renderText ls ≠ [] := by
  cases ls with
  | nil => exact absurd rfl hne
  | cons l rest =>
    have hl : renderLine l ≠ [] := by
      refine renderLine_ne_nil l (h l (by simp)) ?_
      intro t ht
      refine hgood t ?_
      simp only [List.flatten_cons]
      exact List.mem_append_left _ ht
    cases rest with
    | nil => exact hl
    | cons l' rest' =>
      have hrt : renderText (l :: l' :: rest') =
          renderLine l ++ '\n' :: renderText (l' :: rest') := by
        simp [renderText, joinSep]
      rw [hrt]
      intro hcontra
      exact absurd (List.append_eq_nil.mp hcontra).2 (by simp)

theorem splitLines_renderText (ls : List (List (List Char)))
    (h : ∀ l ∈ ls, l ≠ []) (hgood : ∀ t ∈ ls.flatten, goodToken t) :
    splitLines (renderText ls) = ls.map renderLine := by
  cases ls with
  | nil => rfl
  | cons l rest =>
    have hne : renderText (l :: rest) ≠ [] :=
      renderText_ne_nil (l :: rest) (by simp) h hgood
    have heq : splitLines (renderText (l :: rest)) = splitLinesAux (renderText (l :: rest)) [] := by
      cases hx : renderText (l :: rest) with
      | nil => exact absurd hx hne
      | cons a as => rfl
    rw [heq]
    refine splitLinesAux_renderText (l :: rest) ?_ (by simp)
    intro x hx
    refine renderLine_no_newline x ?_
    intro t ht
    refine hgood t ?_
    rw [List.mem_flatten]
    exact ⟨x, hx, ht⟩

/-- The lines of the wrapped output are exactly the rendered greedy
(possibly truncated) lines. -/
theorem wrap_lines (gw : Char → Nat) (thr b k : Nat) (s : List Char) :
    splitLines (word_wrap_wideglyph gw s b thr k) =
      (capLines k (greedy gw thr b (tokenize s))).map renderLine := by
  unfold word_wrap_wideglyph
  refine splitLines_renderText _ ?_ ?_
  · intro l hl
    exact greedy_ne_nil gw thr b (tokenize s) l (mem_capLines hl)
  · intro t ht
    have ht' : t ∈ (greedy gw thr b (tokenize s)).flatten := mem_capLines_flatten ht
    rw [greedy_flatten] at ht'
    exact tokenize_good s t ht'

/-! ### Claim theorems for the text layout engine -/

/-- Claim C1: for every input string, line-character budget, wide-glyph
threshold (and any max-line count), every line of the output of
`word_wrap_wideglyph` has weighted length at most the budget — except
that a single whitespace-delimited token of the input whose weighted
length exceeds the budget is placed alone on its own line, unsplit and
unmodified. -/
theorem wrap_budget_respect (gw : Char → Nat) (thr b k : Nat) (s : List Char) :
    ∀ l ∈ splitLines (word_wrap_wideglyph gw s b thr k),
      weightedLen gw thr l ≤ b ∨
        (b < weightedLen gw thr l ∧ l ∈ tokenize s ∧ ∀ c ∈ l, isWs c = false) := by
  intro l hl
  rw [wrap_lines] at hl
  obtain ⟨line, hline, rfl⟩ := List.mem_map.mp hl
  have hline' : line ∈ greedy gw thr b (tokenize s) := mem_capLines hline
  have hne : line ≠ [] := greedy_ne_nil gw thr b (tokenize s) line hline'
  have hW : weightedLen gw thr (renderLine line) = lineWeight gw thr line :=
    weightedLen_renderLine gw thr line hne
  by_cases hle : weightedLen gw thr (renderLine line) ≤ b
  · left; exact hle
  · right
    rcases greedy_budget gw thr b (tokenize s) line hline' with h | ⟨t0, h⟩
    · omega
    · subst h
      have ht0 : t0 ∈ tokenize s := by
        have hmem : t0 ∈ (greedy gw thr b (tokenize s)).flatten :=
          List.mem_flatten.mpr ⟨[t0], hline', by simp⟩
        rwa [greedy_flatten] at hmem
      have hgood := tokenize_good s t0 ht0
      exact ⟨by omega, ht0, hgood.2⟩

/-- Witness for Claim C1 at a concrete input: the first output line of
wrapping the Scenario A text at budget 10. -/
theorem wrap_budget_respect_witness :
    ("Game Boy".toList ∈
        splitLines (word_wrap_wideglyph (fun _ => 0) "Game Boy Advance BIOS not found".toList 10 1 0)) ∧
      (weightedLen (fun _ => 0) 1 "Game Boy".toList ≤ 10 ∨
        (10 < weightedLen (fun _ => 0) 1 "Game Boy".toList ∧
          "Game Boy".toList ∈ tokenize "Game Boy Advance BIOS not found".toList ∧
          ∀ c ∈ "Game Boy".toList, isWs c = false)) :=
  ⟨by decide,
    wrap_budget_respect (fun _ => 0) 1 10 0 "Game Boy Advance BIOS not found".toList
      "Game Boy".toList (by decide)⟩

theorem tokenize_wrap_unbounded (gw : Char → Nat) (thr b : Nat) (s : List Char) :
    tokenize (word_wrap_wideglyph gw s b thr 0) = tokenize s := by
  rw [wrap_tokens]
  have h0 : capLines 0 (greedy gw thr b (tokenize s)) = greedy gw thr b (tokenize s) := by
    simp [capLines]
  rw [h0]
  exact greedy_flatten gw thr b (tokenize s)

/-- Claim C2: for every input string (with the unbounded line count the
renderer always passes, `MAX_LINES = 0`), the sequence of
non-whitespace tokens of the wrapped output equals the sequence of
non-whitespace tokens of the input; wrapping only moves whitespace. -/
theorem wrap_token_preservation (gw : Char → Nat) (thr b : Nat) (s : List Char) :
    tokenize (word_wrap_wideglyph gw s b thr 0) = tokenize s :=
  tokenize_wrap_unbounded gw thr b s

/-- Claim C5: a positive max-line count caps the number of output lines
(remaining text is truncated), and a max-line count of zero is
unbounded: all input tokens are emitted. -/
theorem wrap_max_line_cap (gw : Char → Nat) (thr b : Nat) (s : List Char) (k : Nat)
    (hk : 0 < k) :
    (splitLines (word_wrap_wideglyph gw s b thr k)).length ≤ k ∧
      tokenize (word_wrap_wideglyph gw s b thr 0) = tokenize s := by
  constructor
  · rw [wrap_lines, List.length_map]
    unfold capLines
    rw [if_neg (Nat.pos_iff_ne_zero.mp hk)]
    exact List.length_take_le k _
  · exact tokenize_wrap_unbounded gw thr b s

/-- Witness for Claim C5 at a concrete input: the Scenario A text
wrapped at budget 10 with a two-line cap. -/
theorem wrap_max_line_cap_witness :
    0 < 2 ∧
      ((splitLines (word_wrap_wideglyph (fun _ => 0) "Game Boy Advance BIOS not found".toList 10 1 2)).length ≤ 2 ∧
        tokenize (word_wrap_wideglyph (fun _ => 0) "Game Boy Advance BIOS not found".toList 10 1 0) =
          tokenize "Game Boy Advance BIOS not found".toList) :=
  ⟨by decide,
    wrap_max_line_cap (fun _ => 0) 1 10 "Game Boy Advance BIOS not found".toList 2 (by decide)⟩

/-- Claim C4: wrapping the empty input string, with any budget,
wide-glyph threshold and max-line count, yields the empty string. -/
theorem wrap_empty_input (gw : Char → Nat) (b thr k : Nat) :
    word_wrap_wideglyph gw [] b thr k = [] := by
  simp [word_wrap_wideglyph, tokenize, tokenizeAux, greedy, capLines, renderText, joinSep]

/-! ### Greedy normal forms: rewrapping a greedily wrapped text is stable -/

/-- Starting from accumulated weight `w`, every token of `ts` fits onto
the current line in turn. -/
def fitsFrom (gw : Char → Nat) (thr b : Nat) : Nat → List (List Char) → Bool
  | _, [] => true
  | w, t :: ts =>
    decide (w + spaceWeight gw thr + tokenWeight gw thr t ≤ b) &&
      fitsFrom gw thr b (w + spaceWeight gw thr + tokenWeight gw thr t) ts

/-- A line is internally greedy-consistent: nonempty, and each token
after the first fits when appended in turn. -/
def lineOk (gw : Char → Nat) (thr b : Nat) : List (List Char) → Bool
  | [] => false
  | t :: ts => fitsFrom gw thr b (tokenWeight gw thr t) ts

/-- The first token of the next line must not fit at the end of the
previous line (otherwise greedy wrapping would merge the lines). -/
def boundaryOk (gw : Char → Nat) (thr b : Nat) (l : List (List Char)) :
    List (List (List Char)) → Bool
  | [] => true
  | l' :: _ =>
    match l' with
    | [] => false
    | t' :: _ =>
      decide (b < lineWeight gw thr l + spaceWeight gw thr + tokenWeight gw thr t')

/-- Greedy normal form of a list of lines. -/
def nfOk (gw : Char → Nat) (thr b : Nat) : List (List (List Char)) → Bool
  | [] => true
  | l :: rest => lineOk gw thr b l && boundaryOk gw thr b l rest && nfOk gw thr b rest

theorem fitsFrom_append (gw : Char → Nat) (thr b : Nat) (ts : List (List Char)) :
    ∀ w t, fitsFrom gw thr b w (ts ++ [t]) =
      (fitsFrom gw thr b w ts &&
        decide
          (ts.foldl (fun w' t' => w' + spaceWeight gw thr + tokenWeight gw thr t') w +
              spaceWeight gw thr + tokenWeight gw thr t ≤ b)) := by
  induction ts with
  | nil => intro w t; simp [fitsFrom]
  | cons t' ts ih =>
    intro w t
    show (decide _ && fitsFrom gw thr b _ (ts ++ [t])) = _
    rw [ih]
    simp [fitsFrom, Bool.and_assoc]

theorem lineOk_concat (gw : Char → Nat) (thr b : Nat) (line : List (List Char))
    (t : List Char) (hne : line ≠ []) (hok : lineOk gw thr b line = true)
    (hfit : lineWeight gw thr line + spaceWeight gw thr + tokenWeight gw thr t ≤ b) :
    lineOk gw thr b (line ++ [t]) = true := by
  cases line with
  | nil => exact absurd rfl hne
  | cons t0 ts0 =>
    show fitsFrom gw thr b (tokenWeight gw thr t0) (ts0 ++ [t]) = true
    rw [fitsFrom_append]
    have hok' : fitsFrom gw thr b (tokenWeight gw thr t0) ts0 = true := hok
    have hfit' : ts0.foldl (fun w' t' => w' + spaceWeight gw thr + tokenWeight gw thr t')
        (tokenWeight gw thr t0) + spaceWeight gw thr + tokenWeight gw thr t ≤ b := hfit
    simp [hok', hfit']

theorem greedyAux_shape (gw : Char → Nat) (thr b : Nat) (ts : List (List Char)) :
    ∀ cur w, ∃ ext rest,
      greedyAux gw thr b ts cur w = (cur.reverse ++ ext) :: rest := by
  induction ts with
  | nil => intro cur w; exact ⟨[], [], by simp [greedyAux]⟩
  | cons t ts ih =>
    intro cur w
    by_cases h : w + spaceWeight gw thr + tokenWeight gw thr t ≤ b
    · obtain ⟨ext, rest, heq⟩ := ih (t :: cur) (w + spaceWeight gw thr + tokenWeight gw thr t)
      refine ⟨t :: ext, rest, ?_⟩
      show greedyAux gw thr b (t :: ts) cur w = _
      simp only [greedyAux, if_pos h]
      rw [heq]
      simp
    · refine ⟨[], greedyAux gw thr b ts [t] (tokenWeight gw thr t), ?_⟩
      show greedyAux gw thr b (t :: ts) cur w = _
      simp only [greedyAux, if_neg h]
      simp

theorem greedyAux_nfOk (gw : Char → Nat) (thr b : Nat) (ts : List (List Char)) :
    ∀ cur w, cur ≠ [] → w = lineWeight gw thr cur.reverse →
      lineOk gw thr b cur.reverse = true →
      nfOk gw thr b (greedyAux gw thr b ts cur w) = true := by
  induction ts with
  | nil =>
    intro cur w hcur hw hok
    simp [greedyAux, nfOk, hok, boundaryOk]
  | cons t ts ih =>
    intro cur w hcur hw hok
    by_cases h : w + spaceWeight gw thr + tokenWeight gw thr t ≤ b
    · show nfOk gw thr b (greedyAux gw thr b (t :: ts) cur w) = true
      simp only [greedyAux, if_pos h]
      refine ih (t :: cur) _ (by simp) ?_ ?_
      · rw [List.reverse_cons,
          lineWeight_concat gw thr cur.reverse t (by simpa using hcur), ← hw]
      · rw [List.reverse_cons]
        refine lineOk_concat gw thr b cur.reverse t (by simpa using hcur) hok ?_
        omega
    · show nfOk gw thr b (greedyAux gw thr b (t :: ts) cur w) = true
      simp only [greedyAux, if_neg h]
      obtain ⟨ext, rest, heq⟩ := greedyAux_shape gw thr b ts [t] (tokenWeight gw thr t)
      have hrec : nfOk gw thr b (greedyAux gw thr b ts [t] (tokenWeight gw thr t)) = true := by
        refine ih [t] _ (by simp) rfl ?_
        show fitsFrom gw thr b (tokenWeight gw thr t) [] = true
        rfl
      show (lineOk gw thr b cur.reverse &&
        boundaryOk gw thr b cur.reverse (greedyAux gw thr b ts [t] (tokenWeight gw thr t)) &&
        nfOk gw thr b (greedyAux gw thr b ts [t] (tokenWeight gw thr t))) = true
      rw [hok, hrec, heq]
      have hb : boundaryOk gw thr b cur.reverse (((t :: ext)) :: rest) = true := by
        show decide (b < lineWeight gw thr cur.reverse + spaceWeight gw thr +
          tokenWeight gw thr t) = true
        rw [← hw]
        simp only [decide_eq_true_eq]
        omega
      simpa using hb

theorem greedy_nfOk (gw : Char → Nat) (thr b : Nat) (ts : List (List Char)) :
    nfOk gw thr b (greedy gw thr b ts) = true := by
  cases ts with
  | nil => rfl
  | cons t ts =>
    refine greedyAux_nfOk gw thr b ts [t] _ (by simp) rfl ?_
    show fitsFrom gw thr b (tokenWeight gw thr t) [] = true
    rfl

theorem fits_consume (gw : Char → Nat) (thr b : Nat) (ts : List (List Char)) :
    ∀ cur w rest', fitsFrom gw thr b w ts = true →
      greedyAux gw thr b (ts ++ rest') cur w =
        greedyAux gw thr b rest' (ts.reverse ++ cur)
          (ts.foldl (fun w' t' => w' + spaceWeight gw thr + tokenWeight gw thr t') w) := by
  induction ts with
  | nil => intro cur w rest' _; simp
  | cons t ts ih =>
    intro cur w rest' hfits
    simp only [fitsFrom, Bool.and_eq_true, decide_eq_true_eq] at hfits
    show greedyAux gw thr b (t :: (ts ++ rest')) cur w = _
    simp only [greedyAux, if_pos hfits.1]
    rw [ih (t :: cur) _ rest' hfits.2]
    simp

theorem greedy_restore (gw : Char → Nat) (thr b : Nat) (L : List (List (List Char))) :
    nfOk gw thr b L = true → greedy gw thr b L.flatten = L := by
  induction L with
  | nil => intro _; rfl
  | cons l rest ih =>
    intro hnf
    simp only [nfOk, Bool.and_eq_true] at hnf
    obtain ⟨⟨hline, hbound⟩, hrest⟩ := hnf
    cases l with
    | nil => exact absurd hline (by simp [lineOk])
    | cons t ts =>
      have hflat : ((t :: ts) :: rest).flatten = t :: (ts ++ rest.flatten) := by simp
      rw [hflat]
      show greedyAux gw thr b (ts ++ rest.flatten) [t] (tokenWeight gw thr t) = _
      have hfits : fitsFrom gw thr b (tokenWeight gw thr t) ts = true := hline
      rw [fits_consume gw thr b ts [t] _ rest.flatten hfits]
      have hW : ts.foldl (fun w' t' => w' + spaceWeight gw thr + tokenWeight gw thr t')
          (tokenWeight gw thr t) = lineWeight gw thr (t :: ts) := rfl
      cases rest with
      | nil =>
        show greedyAux gw thr b [] (ts.reverse ++ [t]) _ = _
        simp [greedyAux]
      | cons l' rest' =>
        cases l' with
        | nil => exact absurd hbound (by simp [boundaryOk])
        | cons t' ts' =>
          have hbound' : b < lineWeight gw thr (t :: ts) + spaceWeight gw thr +
              tokenWeight gw thr t' := by
            have : decide (b < lineWeight gw thr (t :: ts) + spaceWeight gw thr +
                tokenWeight gw thr t') = true := hbound
            simpa using this
          have hflat' : ((t' :: ts') :: rest').flatten = t' :: (ts' ++ rest'.flatten) := by
            simp
          rw [hflat', hW]
          show greedyAux gw thr b (t' :: (ts' ++ rest'.flatten)) (ts.reverse ++ [t]) _ = _
          have hnofit : ¬(lineWeight gw thr (t :: ts) + spaceWeight gw thr +
              tokenWeight gw thr t' ≤ b) := by omega
          simp only [greedyAux, if_neg hnofit]
          have hih := ih hrest
          rw [hflat'] at hih
          have hih' : greedyAux gw thr b (ts' ++ rest'.flatten) [t'] (tokenWeight gw thr t') =
              (t' :: ts') :: rest' := hih
          rw [hih']
          simp

theorem boundaryOk_take (gw : Char → Nat) (thr b : Nat) (l : List (List Char))
    (rest : List (List (List Char))) (k : Nat) (h : boundaryOk gw thr b l rest = true) :
    boundaryOk gw thr b l (rest.take k) = true := by
  cases rest with
  | nil => simp [boundaryOk]
  | cons l' rest' =>
    cases k with
    | zero => simp [boundaryOk]
    | succ k => exact h

theorem nfOk_take (gw : Char → Nat) (thr b : Nat) (L : List (List (List Char))) :
    ∀ k, nfOk gw thr b L = true → nfOk gw thr b (L.take k) = true := by
  induction L with
  | nil => intro k _; simp [nfOk]
  | cons l rest ih =>
    intro k h
    cases k with
    | zero => rfl
    | succ k =>
      simp only [nfOk, Bool.and_eq_true] at h
      obtain ⟨⟨hline, hbound⟩, hrest⟩ := h
      show nfOk gw thr b (l :: rest.take k) = true
      simp only [nfOk, Bool.and_eq_true]
      exact ⟨⟨hline, boundaryOk_take gw thr b l rest k hbound⟩, ih k hrest⟩

theorem nfOk_capLines (gw : Char → Nat) (thr b k : Nat) (L : List (List (List Char)))
    (h : nfOk gw thr b L = true) : nfOk gw thr b (capLines k L) = true := by
  unfold capLines
  by_cases hk : k = 0
  · rw [if_pos hk]; exact h
  · rw [if_neg hk]; exact nfOk_take gw thr b L k h

theorem capLines_idem (k : Nat) (L : List (List (List Char))) :
    capLines k (capLines k L) = capLines k L := by
  unfold capLines
  by_cases hk : k = 0
  · simp [hk]
  · rw [if_neg hk, if_neg hk, List.take_take, Nat.min_self]

/-- Claim C9: wrapping an already-wrapped, budget-satisfying text with
the same budget, threshold and max-line parameters returns it
unchanged. -/
theorem wrap_idempotent (gw : Char → Nat) (thr b k : Nat) (s : List Char)
    (_h : ∀ l ∈ splitLines (word_wrap_wideglyph gw s b thr k),
      weightedLen gw thr l ≤ b) :
    word_wrap_wideglyph gw (word_wrap_wideglyph gw s b thr k) b thr k =
      word_wrap_wideglyph gw s b thr k := by
  have h1 : tokenize (word_wrap_wideglyph gw s b thr k) =
      (capLines k (greedy gw thr b (tokenize s))).flatten := wrap_tokens gw thr b k s
  have h2 : nfOk gw thr b (capLines k (greedy gw thr b (tokenize s))) = true :=
    nfOk_capLines gw thr b k _ (greedy_nfOk gw thr b (tokenize s))
  show renderText (capLines k (greedy gw thr b
    (tokenize (word_wrap_wideglyph gw s b thr k)))) = _
  rw [h1, greedy_restore gw thr b _ h2, capLines_idem]
  rfl

/-- Witness for Claim C9 at a concrete input: the Scenario A text at
budget 10, whose wrapped lines all satisfy the budget. -/
theorem wrap_idempotent_witness :
    (∀ l ∈ splitLines
        (word_wrap_wideglyph (fun _ => 0) "Game Boy Advance BIOS not found".toList 10 1 0),
      weightedLen (fun _ => 0) 1 l ≤ 10) ∧
      word_wrap_wideglyph (fun _ => 0)
          (word_wrap_wideglyph (fun _ => 0) "Game Boy Advance BIOS not found".toList 10 1 0)
          10 1 0 =
        word_wrap_wideglyph (fun _ => 0) "Game Boy Advance BIOS not found".toList 10 1 0 :=
  ⟨by decide,
    wrap_idempotent (fun _ => 0) 1 10 0 "Game Boy Advance BIOS not found".toList (by decide)⟩

/-! ### Output length bound: the wrap never overflows the 1.5x buffer -/

/-- The cost of a token list: each token's length plus one separator. -/
def tokenCost (ts : List (List Char)) : Nat :=
  (ts.map (fun t => t.length + 1)).sum

theorem tokenCost_append (x y : List (List Char)) :
    tokenCost (x ++ y) = tokenCost x + tokenCost y := by
  simp [tokenCost]

theorem tokenizeAux_cost (s : List Char) :
    ∀ acc, tokenCost (tokenizeAux s acc) ≤ s.length + acc.length + 1 := by
  induction s with
  | nil =>
    intro acc
    simp only [tokenizeAux]
    by_cases h : acc.isEmpty
    · rw [if_pos h]
      simp [tokenCost]
    · rw [if_neg h]
      simp [tokenCost]
  | cons c cs ih =>
    intro acc
    simp only [tokenizeAux]
    by_cases hws : isWs c
    · rw [if_pos hws]
      by_cases h : acc.isEmpty
      · rw [if_pos h]
        have := ih []
        simp only [List.length_nil] at this
        simp only [List.length_cons]
        omega
      · rw [if_neg h]
        have h1 : tokenCost (acc.reverse :: tokenizeAux cs []) =
            acc.length + 1 + tokenCost (tokenizeAux cs []) := by
          simp [tokenCost]
        have := ih []
        simp only [List.length_nil] at this
        simp only [List.length_cons]
        omega
    · rw [if_neg hws]
      have := ih (c :: acc)
      simp only [List.length_cons] at this ⊢
      omega

theorem tokenize_cost (s : List Char) : tokenCost (tokenize s) ≤ s.length + 1 := by
  have := tokenizeAux_cost s []
  simpa using this

theorem renderLine_length (line : List (List Char)) (h : line ≠ []) :
    (renderLine line).length + 1 = tokenCost line := by
  induction line with
  | nil => exact absurd rfl h
  | cons t rest ih =>
    cases rest with
    | nil => simp [renderLine, joinSep, tokenCost]
    | cons t' rest' =>
      have hrl : renderLine (t :: t' :: rest') = t ++ ' ' :: renderLine (t' :: rest') := by
        simp [renderLine, joinSep]
      have h2 : tokenCost (t :: t' :: rest') = (t.length + 1) + tokenCost (t' :: rest') := by
        simp [tokenCost]
      rw [hrl, h2, ← ih (by simp)]
      simp
      omega

theorem renderText_length (ls : List (List (List Char))) (hne : ls ≠ [])
    (h : ∀ l ∈ ls, l ≠ []) :
    (renderText ls).length + 1 = tokenCost ls.flatten := by
  induction ls with
  | nil => exact absurd rfl hne
  | cons l rest ih =>
    cases rest with
    | nil =>
      show (renderLine l).length + 1 = tokenCost ([l].flatten)
      rw [renderLine_length l (h l (by simp))]
      simp [tokenCost]
    | cons l' rest' =>
      have hrt : renderText (l :: l' :: rest') =
          renderLine l ++ '\n' :: renderText (l' :: rest') := by
        simp [renderText, joinSep]
      have hflat : (l :: l' :: rest').flatten = l ++ (l' :: rest').flatten := by simp
      rw [hrt, hflat, tokenCost_append,
        ← renderLine_length l (h l (by simp)),
        ← ih (by simp) (fun x hx => h x (by simp [hx]))]
      simp
      omega

theorem wrap_length_le (gw : Char → Nat) (thr b k : Nat) (s : List Char) :
    (word_wrap_wideglyph gw s b thr k).length ≤ s.length := by
  unfold word_wrap_wideglyph
  cases hC : capLines k (greedy gw thr b (tokenize s)) with
  | nil => simp [renderText, joinSep]
  | cons l rest =>
    have hlines : ∀ x ∈ capLines k (greedy gw thr b (tokenize s)), x ≠ [] := by
      intro x hx
      exact greedy_ne_nil gw thr b (tokenize s) x (mem_capLines hx)
    have h1 : (renderText (l :: rest)).length + 1 = tokenCost (l :: rest).flatten := by
      refine renderText_length (l :: rest) (by simp) ?_
      intro x hx
      rw [← hC] at hx
      exact hlines x hx
    have h2 : tokenCost ((l :: rest).flatten) ≤ tokenCost (tokenize s) := by
      rw [← hC]
      have hsplit := List.take_append_drop k (greedy gw thr b (tokenize s))
      unfold capLines
      by_cases hk : k = 0
      · rw [if_pos hk, greedy_flatten]
      · rw [if_neg hk]
        calc tokenCost ((greedy gw thr b (tokenize s)).take k).flatten
            ≤ tokenCost ((greedy gw thr b (tokenize s)).take k).flatten +
              tokenCost ((greedy gw thr b (tokenize s)).drop k).flatten := by omega
          _ = tokenCost (tokenize s) := by
              rw [← tokenCost_append, ← List.flatten_append, hsplit, greedy_flatten]
    have h3 := tokenize_cost s
    omega

/-- The destination buffer capacity the renderer allocates:
`textLength * 1.5` truncated to an integer. -/
def wrapBufferCapacity (n : Nat) : Nat :=
  n * 3 / 2

/-- Writing `content` into a zero-initialised buffer of capacity `cap`:
the content is truncated to the capacity and the unused tail keeps its
zero fill. -/
def wrapBufferWrite (cap : Nat) (content : List Char) : List Char :=
  content.take cap ++ List.replicate (cap - content.length) (Char.ofNat 0)

/-- Claim C3: for printable-ASCII input whose words do not exceed the
total buffer capacity, the zero-initialised `1.5 x inputLength`
destination buffer is never overflowed by the wrap — the output fits
untruncated — and all unused trailing capacity remains zero. -/
theorem wrap_buffer_no_overflow (gw : Char → Nat) (thr b k : Nat) (s : List Char)
    (_hascii : ∀ c ∈ s, 32 ≤ c.toNat ∧ c.toNat ≤ 126)
    (_hword : ∀ t ∈ tokenize s, t.length ≤ wrapBufferCapacity s.length) :
    (word_wrap_wideglyph gw s b thr k).length ≤ wrapBufferCapacity s.length ∧
      wrapBufferWrite (wrapBufferCapacity s.length) (word_wrap_wideglyph gw s b thr k) =
        word_wrap_wideglyph gw s b thr k ++
          List.replicate
            (wrapBufferCapacity s.length - (word_wrap_wideglyph gw s b thr k).length)
            (Char.ofNat 0) := by
  have hlen := wrap_length_le gw thr b k s
  have hcap : s.length ≤ wrapBufferCapacity s.length := by
    unfold wrapBufferCapacity
    omega
  refine ⟨by omega, ?_⟩
  unfold wrapBufferWrite
  rw [List.take_of_length_le (by omega)]

/-- Witness for Claim C3 at a concrete input: the Scenario A text. -/
theorem wrap_buffer_no_overflow_witness :
    ((∀ c ∈ "Game Boy Advance BIOS not found".toList, 32 ≤ c.toNat ∧ c.toNat ≤ 126) ∧
      (∀ t ∈ tokenize "Game Boy Advance BIOS not found".toList,
        t.length ≤ wrapBufferCapacity "Game Boy Advance BIOS not found".toList.length)) ∧
      ((word_wrap_wideglyph (fun _ => 0) "Game Boy Advance BIOS not found".toList 10 1 0).length ≤
          wrapBufferCapacity "Game Boy Advance BIOS not found".toList.length ∧
        wrapBufferWrite (wrapBufferCapacity "Game Boy Advance BIOS not found".toList.length)
            (word_wrap_wideglyph (fun _ => 0) "Game Boy Advance BIOS not found".toList 10 1 0) =
          word_wrap_wideglyph (fun _ => 0) "Game Boy Advance BIOS not found".toList 10 1 0 ++
            List.replicate
              (wrapBufferCapacity "Game Boy Advance BIOS not found".toList.length -
                (word_wrap_wideglyph (fun _ => 0) "Game Boy Advance BIOS not found".toList 10 1 0).length)
              (Char.ofNat 0)) :=
  ⟨⟨by decide, by decide⟩,
    wrap_buffer_no_overflow (fun _ => 0) 1 10 0 "Game Boy Advance BIOS not found".toList
      (by decide) (by decide)⟩

/-! ### The ErrorScreen drawing pipeline (src/libretro/error.cpp)

The constructor and the two draw functions are embedded as traces of
abstract operations.  Run-time quantities the code obtains from its
external libraries (icon dimensions from `pntr_load_image_from_memory`,
text extents from `pntr_measure_text_ex`, the screen resolution
constants `NDS_SCREEN_WIDTH`/`NDS_SCREEN_HEIGHT` from the emulator
headers) are parameters of the trace, collected in `RenderEnv`.  The
inert nuklear window begin/end bracketing is not an acquisition, a
draw or an assertion and is omitted from the trace. -/

/-- Compile-time layout constants of src/libretro/error.cpp. -/
def MARGIN : Int := 8

def TITLE_FONT_HEIGHT : Nat := 20

def BODY_FONT_HEIGHT : Nat := 18

def LINE_WIDTH : Nat := 56

def WIDEGLYPH_WIDTH : Nat := 150

def MAX_LINES : Nat := 0

def ERROR_TITLE : List Char := "Oh no! melonDS DS couldn\x27t start...".toList

def SOLUTION_TITLE : List Char := "Here\x27s what you can do:".toList

def THANK_YOU : List Char := "Thank you for using melonDS DS!".toList

/-- The scoped native resources of the error screen. -/
inductive Res where
  | titleFont
  | bodyFont
  | nkContext
  | errorIcon
  | sorryIcon
  | topScreenImg
  | bottomScreenImg
deriving DecidableEq

/-- Resource kinds, as the spec classifies them. -/
inductive ResKind where
  | font
  | icon
  | context
  | screenBuffer
deriving DecidableEq

def resKind : Res → ResKind
  | .titleFont => .font
  | .bodyFont => .font
  | .nkContext => .context
  | .errorIcon => .icon
  | .sorryIcon => .icon
  | .topScreenImg => .screenBuffer
  | .bottomScreenImg => .screenBuffer

/-- Abstract operations performed by the drawing pipeline, in program
order. -/
inductive Op where
  | acquire (r : Res)
  | assertCheck (ok : Bool)
  | drawImage (target : Res) (img : Res) (x y : Int)
  | drawText (target : Res) (font : Res) (text : List Char) (x y : Int)
  | release (r : Res)

/-- The run-time quantities the drawing code reads from its
collaborators. -/
structure RenderEnv where
  screenWidth : Int
  screenHeight : Int
  errorIconW : Int
  errorIconH : Int
  sorryIconW : Int
  sorryIconH : Int
  titleTextW : Int
  titleTextH : Int
  solutionTextW : Int
  solutionTextH : Int
  thankYouW : Int
  thankYouH : Int
  whatMsg : List Char
  userMsg : List Char
  gw : Char → Nat

/-- Trace of `ErrorScreen::DrawTopScreen`: load the error icon, assert
it is strictly smaller than the screen in both axes, draw it anchored
to the bottom-right corner with an 8-pixel margin, release it, draw the
centred title, then draw the wrapped error summary. -/
def drawTopScreenOps (env : RenderEnv) : List Op :=
  [ .acquire .errorIcon,
    .assertCheck (decide (env.errorIconH < env.screenHeight) &&
      decide (env.errorIconW < env.screenWidth)),
    .drawImage .topScreenImg .errorIcon
      (env.screenWidth - env.errorIconW - MARGIN)
      (env.screenHeight - env.errorIconH - MARGIN),
    .release .errorIcon,
    .drawText .topScreenImg .titleFont ERROR_TITLE
      ((env.screenWidth - env.titleTextW).tdiv 2) MARGIN,
    .drawText .topScreenImg .bodyFont
      (word_wrap_wideglyph env.gw env.whatMsg LINE_WIDTH WIDEGLYPH_WIDTH MAX_LINES)
      MARGIN (env.titleTextH + MARGIN * 2) ]

/-- Trace of `ErrorScreen::DrawBottomScreen`: load the sorry icon,
assert it is strictly smaller than the screen in both axes, draw it
anchored to the bottom-left corner with an 8-pixel margin, release it,
draw the centred title, the wrapped remediation text, and the
right/bottom-aligned acknowledgment. -/
def drawBottomScreenOps (env : RenderEnv) : List Op :=
  [ .acquire .sorryIcon,
    .assertCheck (decide (env.sorryIconH < env.screenHeight) &&
      decide (env.sorryIconW < env.screenWidth)),
    .drawImage .bottomScreenImg .sorryIcon
      MARGIN (env.screenHeight - env.sorryIconH - MARGIN),
    .release .sorryIcon,
    .drawText .bottomScreenImg .titleFont SOLUTION_TITLE
      ((env.screenWidth - env.solutionTextW).tdiv 2) MARGIN,
    .drawText .bottomScreenImg .bodyFont
      (word_wrap_wideglyph env.gw env.userMsg LINE_WIDTH WIDEGLYPH_WIDTH MAX_LINES)
      MARGIN (env.solutionTextH + MARGIN * 2),
    .drawText .bottomScreenImg .bodyFont THANK_YOU
      (env.screenWidth - env.thankYouW - MARGIN)
      (env.screenHeight - env.thankYouH - MARGIN) ]

/-- Trace of the `ErrorScreen` constructor: load both fonts and the
nuklear context, generate both screen buffers, draw both screens, then
release the context and the fonts.  The two screen buffers are member
state released later by the destructor, not within this pass. -/
def constructorOps (env : RenderEnv) : List Op :=
  [ Op.acquire .titleFont, Op.acquire .bodyFont, Op.acquire .nkContext,
    Op.acquire .topScreenImg, Op.acquire .bottomScreenImg ]
  ++ drawTopScreenOps env ++ drawBottomScreenOps env
  ++ [ Op.release .nkContext, Op.release .titleFont, Op.release .bodyFont ]

/-- Execute a trace with assertion semantics: a failed `assertCheck`
aborts immediately (nothing after it runs).  Returns the operations
that executed and whether the run completed. -/
def execOps : List Op → List Op × Bool
  | [] => ([], true)
  | .assertCheck b :: rest =>
    if b then
      ((Op.assertCheck b) :: (execOps rest).1, (execOps rest).2)
    else
      ([Op.assertCheck b], false)
  | op :: rest => (op :: (execOps rest).1, (execOps rest).2)

def execPasses (ops : List Op) : Bool := (execOps ops).2

def executedOps (ops : List Op) : List Op := (execOps ops).1

/-- The image draw calls of a trace, with their target, image and
position. -/
def imageDraws (ops : List Op) : List (Res × Res × Int × Int) :=
  ops.filterMap fun op =>
    match op with
    | .drawImage tgt img x y => some (tgt, img, x, y)
    | _ => none

theorem execOps_drawTop_pass (env : RenderEnv)
    (h : (decide (env.errorIconH < env.screenHeight) &&
      decide (env.errorIconW < env.screenWidth)) = true) :
    execOps (drawTopScreenOps env) = (drawTopScreenOps env, true) := by
  simp [drawTopScreenOps, execOps, h]

theorem execOps_drawTop_fail (env : RenderEnv)
    (h : (decide (env.errorIconH < env.screenHeight) &&
      decide (env.errorIconW < env.screenWidth)) = false) :
    execOps (drawTopScreenOps env) =
      ([Op.acquire .errorIcon, Op.assertCheck false], false) := by
  simp [drawTopScreenOps, execOps, h]

theorem execOps_drawBottom_pass (env : RenderEnv)
    (h : (decide (env.sorryIconH < env.screenHeight) &&
      decide (env.sorryIconW < env.screenWidth)) = true) :
    execOps (drawBottomScreenOps env) = (drawBottomScreenOps env, true) := by
  simp [drawBottomScreenOps, execOps, h]

theorem execOps_drawBottom_fail (env : RenderEnv)
    (h : (decide (env.sorryIconH < env.screenHeight) &&
      decide (env.sorryIconW < env.screenWidth)) = false) :
    execOps (drawBottomScreenOps env) =
      ([Op.acquire .sorryIcon, Op.assertCheck false], false) := by
  simp [drawBottomScreenOps, execOps, h]

/-- Claim C6: on each screen the icon dimensions are asserted strictly
smaller than the screen in both axes before the icon is drawn.  An icon
one pixel smaller than the screen in both dimensions renders the whole
pass without triggering the assertion; an icon one pixel larger
triggers it — the pass aborts and, in particular, nothing is drawn. -/
theorem icon_size_assertion (env : RenderEnv) :
    (execPasses (drawTopScreenOps { env with
        errorIconW := env.screenWidth - 1, errorIconH := env.screenHeight - 1 }) = true) ∧
      (execPasses (drawTopScreenOps { env with
          errorIconW := env.screenWidth + 1, errorIconH := env.screenHeight + 1 }) = false ∧
        imageDraws (executedOps (drawTopScreenOps { env with
          errorIconW := env.screenWidth + 1, errorIconH := env.screenHeight + 1 })) = []) ∧
      (execPasses (drawBottomScreenOps { env with
        sorryIconW := env.screenWidth - 1, sorryIconH := env.screenHeight - 1 }) = true) ∧
      (execPasses (drawBottomScreenOps { env with
          sorryIconW := env.screenWidth + 1, sorryIconH := env.screenHeight + 1 }) = false ∧
        imageDraws (executedOps (drawBottomScreenOps { env with
          sorryIconW := env.screenWidth + 1, sorryIconH := env.screenHeight + 1 })) = []) := by
  have hts : (decide (env.screenHeight - 1 < env.screenHeight) &&
      decide (env.screenWidth - 1 < env.screenWidth)) = true := by
    simp only [Bool.and_eq_true, decide_eq_true_eq]
    omega
  have htl : (decide (env.screenHeight + 1 < env.screenHeight) &&
      decide (env.screenWidth + 1 < env.screenWidth)) = false := by
    simp only [Bool.and_eq_false_iff, decide_eq_false_iff_not]
    left
    omega
  refine ⟨?_, ⟨?_, ?_⟩, ?_, ⟨?_, ?_⟩⟩
  · unfold execPasses
    rw [execOps_drawTop_pass _ hts]
  · unfold execPasses
    rw [execOps_drawTop_fail _ htl]
  · unfold executedOps
    rw [execOps_drawTop_fail _ htl]
    rfl
  · unfold execPasses
    rw [execOps_drawBottom_pass _ hts]
  · unfold execPasses
    rw [execOps_drawBottom_fail _ htl]
  · unfold executedOps
    rw [execOps_drawBottom_fail _ htl]
    rfl

/-- Claim C10: the top screen's error icon is anchored bottom-right at
(screenWidth - iconWidth - margin, screenHeight - iconHeight - margin)
and the bottom screen's sorry icon is anchored bottom-left at
(margin, screenHeight - iconHeight - margin), with margin 8. -/
theorem icon_anchoring (env : RenderEnv) :
    imageDraws (drawTopScreenOps env) =
        [(Res.topScreenImg, Res.errorIcon,
          env.screenWidth - env.errorIconW - 8, env.screenHeight - env.errorIconH - 8)] ∧
      imageDraws (drawBottomScreenOps env) =
        [(Res.bottomScreenImg, Res.sorryIcon,
          8, env.screenHeight - env.sorryIconH - 8)] ∧
      MARGIN = 8 := by
  refine ⟨?_, ?_, rfl⟩
  · simp [imageDraws, drawTopScreenOps, MARGIN]
  · simp [imageDraws, drawBottomScreenOps, MARGIN]

/-! ### Resource acquisition and release discipline -/

/-- Acquisition/release events of a trace. -/
inductive REvent where
  | acq (r : Res)
  | rel (r : Res)
deriving DecidableEq

def resourceEvents (ops : List Op) : List REvent :=
  ops.filterMap fun op =>
    match op with
    | .acquire r => some (.acq r)
    | .release r => some (.rel r)
    | _ => none

/-- The resources the claim is about: fonts, icons and the drawing
context (the screen buffers are member state, not pass-scoped). -/
def passScoped (r : Res) : Bool :=
  match resKind r with
  | .font => true
  | .icon => true
  | .context => true
  | .screenBuffer => false

def acqOrder (ops : List Op) (p : Res → Bool) : List Res :=
  (resourceEvents ops).filterMap fun e =>
    match e with
    | .acq r => if p r then some r else none
    | _ => none

def relOrder (ops : List Op) (p : Res → Bool) : List Res :=
  (resourceEvents ops).filterMap fun e =>
    match e with
    | .rel r => if p r then some r else none
    | _ => none

def countAcq (ops : List Op) (r : Res) : Nat :=
  (resourceEvents ops).count (REvent.acq r)

def countRel (ops : List Op) (r : Res) : Nat :=
  (resourceEvents ops).count (REvent.rel r)

def firstIdx (evs : List REvent) (e : REvent) : Nat :=
  evs.findIdx (fun x => x = e)

/-- Fonts and the drawing context only. -/
def fontOrCtx (r : Res) : Bool :=
  match resKind r with
  | .font => true
  | .context => true
  | _ => false

/-- The constructor's resource events are a fixed sequence, independent
of the run-time environment. -/
theorem resourceEvents_constructor (env : RenderEnv) :
    resourceEvents (constructorOps env) =
      [.acq .titleFont, .acq .bodyFont, .acq .nkContext,
       .acq .topScreenImg, .acq .bottomScreenImg,
       .acq .errorIcon, .rel .errorIcon,
       .acq .sorryIcon, .rel .sorryIcon,
       .rel .nkContext, .rel .titleFont, .rel .bodyFont] := rfl

/-- A fixed concrete environment (NDS screen resolution, arbitrary
measured extents) for closed evaluations of the traces. -/
def sampleEnv : RenderEnv where
  screenWidth := 256
  screenHeight := 192
  errorIconW := 104
  errorIconH := 104
  sorryIconW := 104
  sorryIconH := 104
  titleTextW := 200
  titleTextH := 20
  solutionTextW := 150
  solutionTextH := 20
  thankYouW := 180
  thankYouH := 18
  whatMsg := []
  userMsg := []
  gw := fun _ => 0

/-- Counterexample to Claim C7: the fonts and the drawing context are
acquired in the order titleFont, bodyFont, nkContext but released in
the order nkContext, titleFont, bodyFont — which is not the reverse of
the acquisition order (that would release bodyFont before titleFont). -/
theorem release_order_not_reverse_of_acquisition :
    relOrder (constructorOps sampleEnv) fontOrCtx ≠
      (acqOrder (constructorOps sampleEnv) fontOrCtx).reverse := by
  decide

/-- Claim C7 (amended): every font, icon and drawing-context handle
acquired during the rendering pass is acquired exactly once and
released exactly once before the pass returns, each release occurring
after its acquisition; the drawing context is released before either
font, but the two fonts are released in their acquisition order
(title font before body font), not in reverse order of acquisition. -/
theorem resources_released_before_return (env : RenderEnv) :
    (∀ r : Res, passScoped r = true →
      countAcq (constructorOps env) r = 1 ∧ countRel (constructorOps env) r = 1 ∧
        firstIdx (resourceEvents (constructorOps env)) (REvent.acq r) <
          firstIdx (resourceEvents (constructorOps env)) (REvent.rel r)) ∧
      acqOrder (constructorOps env) fontOrCtx = [.titleFont, .bodyFont, .nkContext] ∧
      relOrder (constructorOps env) fontOrCtx = [.nkContext, .titleFont, .bodyFont] := by
  refine ⟨?_, ?_, ?_⟩
  · intro r hr
    unfold countAcq countRel
    rw [resourceEvents_constructor]
    revert hr
    cases r <;> intro hr <;> first
      | exact absurd hr (by decide)
      | exact ⟨by rfl, by rfl, by decide⟩
  · show acqOrder (constructorOps env) fontOrCtx = _
    unfold acqOrder
    rw [resourceEvents_constructor]
    decide
  · show relOrder (constructorOps env) fontOrCtx = _
    unfold relOrder
    rw [resourceEvents_constructor]
    decide

/-- Witness for Claim C7 (amended) at a concrete resource: the title
font is pass-scoped, acquired once, released once, and released after
its acquisition. -/
theorem resources_released_before_return_witness :
    passScoped Res.titleFont = true ∧
      (countAcq (constructorOps sampleEnv) Res.titleFont = 1 ∧
        countRel (constructorOps sampleEnv) Res.titleFont = 1 ∧
        firstIdx (resourceEvents (constructorOps sampleEnv)) (REvent.acq Res.titleFont) <
          firstIdx (resourceEvents (constructorOps sampleEnv)) (REvent.rel Res.titleFont)) :=
  ⟨by decide, (resources_released_before_return sampleEnv).1 Res.titleFont (by decide)⟩

/-! ### ErrorScreen::Render and the screen combiner

The `ScreenLayoutData` collaborator is not part of this repository's
visible sources; its operations are modelled from the specification's
layout-state boundary (`isStale`, `reinitializeForSoftwarePath`,
`clear`, `combine`, buffer accessors).  The control flow of
`ErrorScreen::Render` — update when dirty, clear, combine, present —
is embedded from src/libretro/error.cpp. -/

/-- The rendering paths the layout can be configured for. -/
inductive Renderer where
  | software
  | openGl
deriving DecidableEq

/-- Modelled from the spec: the presentation target's layout state — a
staleness flag, the renderer it is configured for, and the combined
output buffer. -/
structure ScreenLayoutData where
  dirty : Bool
  configuredRenderer : Renderer
  buffer : List Nat

/-- Modelled from the spec: `reinitializeForSoftwarePath` (called as
`Update(Renderer::Software)`) configures the layout for the requested
path and clears the staleness flag. -/
def layoutUpdate (r : Renderer) (sl : ScreenLayoutData) : ScreenLayoutData :=
  { sl with dirty := false, configuredRenderer := r }

/-- Modelled from the spec: `clear` zero-fills the combined buffer. -/
def layoutClear (sl : ScreenLayoutData) : ScreenLayoutData :=
  { sl with buffer := List.replicate sl.buffer.length 0 }

/-- Modelled from the spec: `combine` reads the two equally-sized input
buffers and writes the combined image (top half from the top screen,
bottom half from the bottom screen); the inputs are only read. -/
def layoutCombine (top bottom : List Nat) (sl : ScreenLayoutData) : ScreenLayoutData :=
  { sl with buffer := top ++ bottom }

/-- The error screen's own state: the two rendered screen buffers. -/
structure ErrorScreenState where
  topScreen : List Nat
  bottomScreen : List Nat

/-- Embedding of `ErrorScreen::Render`: when the layout is dirty it is
updated for the software path; the layout is then cleared and the two
screens combined.  The screen buffers are passed read-only; the
function returns the new layout alongside the (unchanged) screen
state. -/
def ErrorScreenRender (st : ErrorScreenState) (sl : ScreenLayoutData) :
    ScreenLayoutData × ErrorScreenState :=
  let sl1 := if sl.dirty then layoutUpdate Renderer.software sl else sl
  let sl2 := layoutClear sl1
  let sl3 := layoutCombine st.topScreen st.bottomScreen sl2
  (sl3, st)

/-- Claim C8: on every present/combine call, a dirty layout is
reinitialized for the software rendering path before the screens are
combined (afterwards it is configured for software and no longer
dirty), the combined buffer is the top buffer followed by the bottom
buffer, and the two input pixel buffers are not mutated. -/
theorem render_reinit_and_no_mutation (st : ErrorScreenState) (sl : ScreenLayoutData) :
    (sl.dirty = true →
      (ErrorScreenRender st sl).1.configuredRenderer = Renderer.software ∧
        (ErrorScreenRender st sl).1.dirty = false) ∧
      (ErrorScreenRender st sl).1.buffer = st.topScreen ++ st.bottomScreen ∧
      (ErrorScreenRender st sl).2 = st := by
  refine ⟨?_, ?_, rfl⟩
  · intro h
    simp [ErrorScreenRender, layoutUpdate, layoutClear, layoutCombine, h]
  · simp [ErrorScreenRender, layoutUpdate, layoutClear, layoutCombine]

/-- Witness for Claim C8 at a concrete dirty layout and concrete screen
buffers. -/
theorem render_reinit_and_no_mutation_witness :
    (ScreenLayoutData.mk true Renderer.openGl [7, 7]).dirty = true ∧
      ((ErrorScreenRender (ErrorScreenState.mk [1, 2] [3, 4])
            (ScreenLayoutData.mk true Renderer.openGl [7, 7])).1.configuredRenderer =
          Renderer.software ∧
        (ErrorScreenRender (ErrorScreenState.mk [1, 2] [3, 4])
            (ScreenLayoutData.mk true Renderer.openGl [7, 7])).1.dirty = false) ∧
      (ErrorScreenRender (ErrorScreenState.mk [1, 2] [3, 4])
          (ScreenLayoutData.mk true Renderer.openGl [7, 7])).1.buffer = [1, 2] ++ [3, 4] ∧
      (ErrorScreenRender (ErrorScreenState.mk [1, 2] [3, 4])
          (ScreenLayoutData.mk true Renderer.openGl [7, 7])).2 =
        ErrorScreenState.mk [1, 2] [3, 4] :=
  ⟨rfl,
    (render_reinit_and_no_mutation (ErrorScreenState.mk [1, 2] [3, 4])
        (ScreenLayoutData.mk true Renderer.openGl [7, 7])).1 rfl,
    (render_reinit_and_no_mutation (ErrorScreenState.mk [1, 2] [3, 4])
        (ScreenLayoutData.mk true Renderer.openGl [7, 7])).2.1,
    (render_reinit_and_no_mutation (ErrorScreenState.mk [1, 2] [3, 4])
        (ScreenLayoutData.mk true Renderer.openGl [7, 7])).2.2⟩

end MelondsDS
